import Mathlib

/-!
# A shallow embedding of `cpm.py` (Critical Path Method analyzer)

This file embeds the scheduling core of `src/cpm.py` in Lean and proves or
refutes the specification's claims about it.

Modelling decisions:
* An input row carries the `Task`, `Duration` and `Predecessors` columns of the
  CSV; durations are integers (`Int`).
* Python dictionaries keyed by task name are modelled as functions
  `String → Option Int` (`DictI`); assignment is functional update, so a later
  store under the same key overwrites the earlier one, exactly as in Python.
* The `while not remaining.empty: for i, row in remaining.iterrows(): ... break`
  loops of `calculate_es_ef` and `calculate_ls_lf` terminate in Python only
  when every sweep resolves a row; a sweep that resolves nothing loops forever.
  The embedding makes one recursive call per resolved row and returns `none`
  when a sweep resolves nothing (the Python program would hang) or when the
  supplied fuel is exhausted.  `some` results are exactly the runs the Python
  program completes, given enough fuel.
-/

/-- One row of the input CSV after `load_and_prepare_data` parsed the
`Predecessors` column into a list. -/
structure Row where
  task : String
  duration : Int
  predecessors : List String
  deriving DecidableEq, Repr

/-- A row together with its derived `Successors` column. -/
structure Activity where
  task : String
  duration : Int
  predecessors : List String
  successors : List String
  deriving DecidableEq, Repr

/-- One row of the final result table (`Task`, `Duration`, `Predecessors`,
`Successors`, `ES`, `EF`, `LS`, `LF`, `Slack`, `Critical`). -/
structure OutRow where
  task : String
  duration : Int
  predecessors : List String
  successors : List String
  es : Int
  ef : Int
  ls : Int
  lf : Int
  slack : Int
  critical : Bool
  deriving DecidableEq, Repr

/-- A Python dict keyed by task name with integer values, as a partial map. -/
def DictI := String → Option Int

/-- The empty dict. -/
def demp : DictI := fun _ => none

/-- Python dict assignment `d[k] = v`: overwrites any previous binding. -/
def dupdate (d : DictI) (k : String) (v : Int) : DictI :=
  fun q => if q = k then some v else d q

/-- Python `max` on a nonempty list (the `[]` case is unreachable in the
source, which guards every `max` call by list nonemptiness). -/
def pyMax : List Int → Int
  | [] => 0
  | x :: xs => xs.foldl max x

/-- Python `min` on a nonempty list (the `[]` case is unreachable in the
source, which guards every `min` call by list nonemptiness). -/
def pyMin : List Int → Int
  | [] => 0
  | x :: xs => xs.foldl min x

/-- The successors dict built by `load_and_prepare_data`:
for each row, for each of its predecessor tokens `p`, the row's task is
appended to `successors_map[p]`.  `buildSucc rows q` is the final list held
under key `q` (rows in input order, one copy per occurrence of `q`). -/
def buildSucc (rows : List Row) (q : String) : List String :=
  rows.flatMap (fun r => List.replicate (r.predecessors.count q) r.task)

/-- Embedding of `load_and_prepare_data` after CSV parsing: attaches the
derived `Successors` column to every row.  The source performs no validation
here: duplicate task names and unresolvable predecessor tokens pass through. -/
def load_and_prepare_data (rows : List Row) : List Activity :=
  rows.map (fun r => ⟨r.task, r.duration, r.predecessors, buildSucc rows r.task⟩)

/-- Guard of the forward sweep: `all(p in ef_dict for p in row["Predecessors"])`. -/
def allPredsDone (efd : DictI) (a : Activity) : Bool :=
  a.predecessors.all (fun p => (efd p).isSome)

/-- ES of a row as computed by `calculate_es_ef`:
`max([ef_dict[p] for p in row["Predecessors"]]) if row["Predecessors"] else 0`. -/
def esOf (efd : DictI) (a : Activity) : Int :=
  if a.predecessors.isEmpty then 0
  else pyMax (a.predecessors.map (fun p => (efd p).getD 0))

/-- Guard of the backward sweep: `all(s in ls_dict for s in row["Successors"])`. -/
def allSuccsDone (lsd : DictI) (a : Activity) : Bool :=
  a.successors.all (fun s => (lsd s).isSome)

/-- LF of a row as computed by `calculate_ls_lf`:
`min([ls_dict[s] for s in row["Successors"]]) if row["Successors"] else project_finish`. -/
def lfOf (pf : Int) (lsd : DictI) (a : Activity) : Int :=
  if a.successors.isEmpty then pf
  else pyMin (a.successors.map (fun s => (lsd s).getD 0))

/-- One `for ... break` sweep: scan the remaining rows in order and extract the
first one satisfying the guard, returning it and the rest in order. -/
def pickFirst (p : Activity → Bool) : List Activity → Option (Activity × List Activity)
  | [] => none
  | a :: rest =>
    if p a then some (a, rest)
    else match pickFirst p rest with
      | none => none
      | some (b, rest') => some (b, a :: rest')

/-- The `while` loop of `calculate_es_ef`.  Each successful sweep resolves the
first row whose predecessors all have an EF, stores its ES/EF and drops it; a
sweep that resolves nothing makes the Python loop spin forever, modelled as
`none`. -/
def forwardLoop : Nat → DictI → DictI → List Activity → Option (DictI × DictI)
  | _, esd, efd, [] => some (esd, efd)
  | 0, _, _, _ :: _ => none
  | fuel + 1, esd, efd, remaining@(_ :: _) =>
    match pickFirst (allPredsDone efd) remaining with
    | none => none
    | some (a, rest) =>
      forwardLoop fuel (dupdate esd a.task (esOf efd a))
        (dupdate efd a.task (esOf efd a + a.duration)) rest

/-- Embedding of `calculate_es_ef`: run the forward loop from empty dicts and
return `(es_dict, ef_dict)` on completion. -/
def calculate_es_ef (fuel : Nat) (acts : List Activity) : Option (DictI × DictI) :=
  forwardLoop fuel demp demp acts

/-- The `project_finish = df["EF"].max()` scalar: maximum of the per-row EF
column (the `ef_dict` lookups of the task names, in row order). -/
def project_finish (efd : DictI) (acts : List Activity) : Int :=
  pyMax (acts.map (fun a => (efd a.task).getD 0))

/-- The seeding loop of `calculate_ls_lf`: rows without successors get
`lf_dict[task] = project_finish` before the main loop runs. -/
def seedLF (pf : Int) (acts : List Activity) : DictI :=
  acts.foldl (fun lfd a => if a.successors.isEmpty then dupdate lfd a.task pf else lfd) demp

/-- The `while` loop of `calculate_ls_lf`, mirror image of `forwardLoop`:
the guard consults `ls_dict`, and a resolved row stores `lf` and `lf - duration`. -/
def backwardLoop : Nat → Int → DictI → DictI → List Activity → Option (DictI × DictI)
  | _, _, lsd, lfd, [] => some (lsd, lfd)
  | 0, _, _, _, _ :: _ => none
  | fuel + 1, pf, lsd, lfd, remaining@(_ :: _) =>
    match pickFirst (allSuccsDone lsd) remaining with
    | none => none
    | some (a, rest) =>
      backwardLoop fuel pf (dupdate lsd a.task (lfOf pf lsd a - a.duration))
        (dupdate lfd a.task (lfOf pf lsd a)) rest

/-- Embedding of `calculate_ls_lf` given the forward pass's `ef_dict`:
computes `project_finish`, seeds terminal rows, and runs the backward loop,
returning `(ls_dict, lf_dict)` on completion. -/
def calculate_ls_lf (fuel : Nat) (efd : DictI) (acts : List Activity) :
    Option (DictI × DictI) :=
  backwardLoop fuel (project_finish efd acts) demp (seedLF (project_finish efd acts) acts) acts

/-- Materialize the result table: the four computed columns are per-row dict
lookups by task name (`df["Task"].map(..._dict)`), and `calculate_slack` adds
`Slack = LS - ES` and `Critical = (Slack == 0)`. -/
def mkTable (esd efd lsd lfd : DictI) (acts : List Activity) : List OutRow :=
  acts.map (fun a =>
    let es := (esd a.task).getD 0
    let ef := (efd a.task).getD 0
    let ls := (lsd a.task).getD 0
    let lf := (lfd a.task).getD 0
    ⟨a.task, a.duration, a.predecessors, a.successors, es, ef, ls, lf,
      ls - es, (ls - es) == 0⟩)

/-- The whole pipeline of the script: prepare, forward pass, backward pass,
slack; returns the result table and the `project_finish` scalar, or `none`
when a pass would hang (or fuel ran out). -/
def runPipeline (fuel : Nat) (rows : List Row) : Option (List OutRow × Int) :=
  let acts := load_and_prepare_data rows
  match calculate_es_ef fuel acts with
  | none => none
  | some (esd, efd) =>
    match calculate_ls_lf fuel efd acts with
    | none => none
    | some (lsd, lfd) =>
      some (mkTable esd efd lsd lfd acts, project_finish efd acts)

/-- Embedding of `print_critical_path`'s extraction
`df[df["Critical"]]["Task"].tolist()`: critical tasks in row order. -/
def critical_tasks (out : List OutRow) : List String :=
  (out.filter (fun o => o.critical)).map (fun o => o.task)

/-- The string `print_critical_path` renders: `" -> ".join(critical_tasks)`. -/
def print_critical_path (out : List OutRow) : String :=
  String.intercalate " -> " (critical_tasks out)

/-! ## Resolution traces

A successful run of either `while` loop resolves the remaining rows in some
order (a permutation of them).  `foldF`/`foldB` replay the dict updates along
such a trace, and `StepOkF`/`StepOkB` say every step's guard held when it ran.
These let properties of a completed pass be proven by induction on the trace.
-/

/-- Replay the forward loop's dict updates along a resolution trace. -/
def foldF : DictI → DictI → List Activity → DictI × DictI
  | esd, efd, [] => (esd, efd)
  | esd, efd, a :: tr =>
    foldF (dupdate esd a.task (esOf efd a))
      (dupdate efd a.task (esOf efd a + a.duration)) tr

/-- Every step of a forward resolution trace had its guard satisfied. -/
def StepOkF : DictI → List Activity → Prop
  | _, [] => True
  | efd, a :: tr =>
    allPredsDone efd a = true ∧
    StepOkF (dupdate efd a.task (esOf efd a + a.duration)) tr

/-- Replay the backward loop's dict updates along a resolution trace. -/
def foldB : Int → DictI → DictI → List Activity → DictI × DictI
  | _, lsd, lfd, [] => (lsd, lfd)
  | pf, lsd, lfd, a :: tr =>
    foldB pf (dupdate lsd a.task (lfOf pf lsd a - a.duration))
      (dupdate lfd a.task (lfOf pf lsd a)) tr

/-- Every step of a backward resolution trace had its guard satisfied. -/
def StepOkB : Int → DictI → List Activity → Prop
  | _, _, [] => True
  | pf, lsd, a :: tr =>
    allSuccsDone lsd a = true ∧
    StepOkB pf (dupdate lsd a.task (lfOf pf lsd a - a.duration)) tr

/-- An acyclicity witness: the activities listed so that each one's
dependencies (`deps`) name only already-listed activities or names in `done`.
With `deps` = predecessors this is a topological order of the activity graph. -/
def TopoOrderOn (deps : Activity → List String) : List String → List Activity → Prop
  | _, [] => True
  | done, a :: tr =>
    (∀ x ∈ deps a, x ∈ done) ∧ TopoOrderOn deps (a.task :: done) tr

/-- Decomposition form of `TopoOrderOn deps []`: wherever the list is split,
the middle activity's dependencies name only earlier activities. -/
def PartsTopo (deps : Activity → List String) (ord : List Activity) : Prop :=
  ∀ l₁ a l₂, ord = l₁ ++ a :: l₂ → ∀ x ∈ deps a, x ∈ l₁.map Activity.task

/-! ## Concrete input fixtures used by the claim theorems -/

/-- The spec's linear chain, witness input for C5: A(3), B(2, pred A), C(4, pred B). -/
def rowsC5 : List Row := [⟨"A", 3, []⟩, ⟨"B", 2, ["A"]⟩, ⟨"C", 4, ["B"]⟩]

/-- The result table the pipeline computes for `rowsC5`. -/
def outC5 : List OutRow :=
  [⟨"A", 3, [], ["B"], 0, 3, 0, 3, 0, true⟩,
   ⟨"B", 2, ["A"], ["C"], 3, 5, 3, 5, 0, true⟩,
   ⟨"C", 4, ["B"], [], 5, 9, 5, 9, 0, true⟩]

/-- First output row of `outC5`, the concrete activity the C5 witness checks. -/
def oC5 : OutRow := ⟨"A", 3, [], ["B"], 0, 3, 0, 3, 0, true⟩

/-- The spec's parallel-branches input, witness input for C6. -/
def rowsC6 : List Row :=
  [⟨"A", 2, []⟩, ⟨"B", 5, ["A"]⟩, ⟨"C", 1, ["A"]⟩, ⟨"D", 1, ["B", "C"]⟩]

/-- The result table the pipeline computes for `rowsC6`. -/
def outC6 : List OutRow :=
  [⟨"A", 2, [], ["B", "C"], 0, 2, 0, 2, 0, true⟩,
   ⟨"B", 5, ["A"], ["D"], 2, 7, 2, 7, 0, true⟩,
   ⟨"C", 1, ["A"], ["D"], 2, 3, 6, 7, 4, false⟩,
   ⟨"D", 1, ["B", "C"], [], 7, 8, 7, 8, 0, true⟩]

/-- The spec's parallel-branches input, witness input for C7. -/
def rowsC7 : List Row :=
  [⟨"A", 2, []⟩, ⟨"B", 5, ["A"]⟩, ⟨"C", 1, ["A"]⟩, ⟨"D", 1, ["B", "C"]⟩]

/-- The result table the pipeline computes for `rowsC7`. -/
def outC7 : List OutRow :=
  [⟨"A", 2, [], ["B", "C"], 0, 2, 0, 2, 0, true⟩,
   ⟨"B", 5, ["A"], ["D"], 2, 7, 2, 7, 0, true⟩,
   ⟨"C", 1, ["A"], ["D"], 2, 3, 6, 7, 4, false⟩,
   ⟨"D", 1, ["B", "C"], [], 7, 8, 7, 8, 0, true⟩]

/-- The spec's linear chain, witness input for C8. -/
def rowsC8 : List Row := [⟨"A", 3, []⟩, ⟨"B", 2, ["A"]⟩, ⟨"C", 4, ["B"]⟩]

/-- The result table the pipeline computes for `rowsC8`. -/
def outC8 : List OutRow :=
  [⟨"A", 3, [], ["B"], 0, 3, 0, 3, 0, true⟩,
   ⟨"B", 2, ["A"], ["C"], 3, 5, 3, 5, 0, true⟩,
   ⟨"C", 4, ["B"], [], 5, 9, 5, 9, 0, true⟩]

/-- First output row of `outC8`, the concrete activity the C8 witness checks. -/
def oC8 : OutRow := ⟨"A", 3, [], ["B"], 0, 3, 0, 3, 0, true⟩

/-- The spec's linear chain, witness input for C9. -/
def rowsC9 : List Row := [⟨"A", 3, []⟩, ⟨"B", 2, ["A"]⟩, ⟨"C", 4, ["B"]⟩]

/-- The result table the pipeline computes for `rowsC9`. -/
def outC9 : List OutRow :=
  [⟨"A", 3, [], ["B"], 0, 3, 0, 3, 0, true⟩,
   ⟨"B", 2, ["A"], ["C"], 3, 5, 3, 5, 0, true⟩,
   ⟨"C", 4, ["B"], [], 5, 9, 5, 9, 0, true⟩]

/-- Second output row of `outC9`, the concrete activity the C9 witness checks. -/
def oC9 : OutRow := ⟨"B", 2, ["A"], ["C"], 3, 5, 3, 5, 0, true⟩

/-- A two-activity predecessor cycle: A depends on B, B depends on A. -/
def rowsC1 : List Row := [⟨"A", 1, ["B"]⟩, ⟨"B", 1, ["A"]⟩]

/-- A single activity naming the nonexistent predecessor `Z`. -/
def rowsC2 : List Row := [⟨"A", 1, ["Z"]⟩]

/-- A linear chain given out of ES order: row B (pred A) before row A. -/
def rowsC3 : List Row := [⟨"B", 2, ["A"]⟩, ⟨"A", 3, []⟩]

/-- The result table the pipeline computes for `rowsC3`. -/
def outC3 : List OutRow :=
  [⟨"B", 2, ["A"], [], 3, 5, 3, 5, 0, true⟩,
   ⟨"A", 3, [], ["B"], 0, 3, 0, 3, 0, true⟩]

/-- Two rows sharing the task name A, with different durations. -/
def rowsC4 : List Row := [⟨"A", 2, []⟩, ⟨"A", 3, []⟩]

/-- Duplicate task name C alongside a predecessor cycle between A and B. -/
def rowsC10 : List Row :=
  [⟨"A", 1, ["B"]⟩, ⟨"B", 1, ["A"]⟩, ⟨"C", 1, []⟩, ⟨"C", 2, []⟩]

/-- Two rows sharing the task name A (witness input for the amended C10). -/
def rowsC10w : List Row := [⟨"A", 2, []⟩, ⟨"A", 3, []⟩]

/-- First output row the pipeline computes for `rowsC10w`. -/
def oC10a : OutRow := ⟨"A", 2, [], [], 0, 3, 0, 3, 0, true⟩

/-- Second output row the pipeline computes for `rowsC10w`. -/
def oC10b : OutRow := ⟨"A", 3, [], [], 0, 3, 0, 3, 0, true⟩

/-- The result table the pipeline computes for `rowsC10w`. -/
def outC10w : List OutRow := [oC10a, oC10b]

/-! ## Sanity theorems: the embedding reproduces the spec's concrete scenarios -/

/-- The spec's linear-chain scenario A(3), B(2, pred A), C(4, pred B):
ES/EF A(0,3) B(3,5) C(5,9), project finish 9, everything critical. -/
theorem sanity_linear_chain :
    runPipeline 3 [⟨"A", 3, []⟩, ⟨"B", 2, ["A"]⟩, ⟨"C", 4, ["B"]⟩] =
      some ([⟨"A", 3, [], ["B"], 0, 3, 0, 3, 0, true⟩,
             ⟨"B", 2, ["A"], ["C"], 3, 5, 3, 5, 0, true⟩,
             ⟨"C", 4, ["B"], [], 5, 9, 5, 9, 0, true⟩], 9) := by decide

/-- The spec's parallel-branches scenario: critical path A, B, D. -/
theorem sanity_parallel_branches :
    (runPipeline 4 [⟨"A", 2, []⟩, ⟨"B", 5, ["A"]⟩, ⟨"C", 1, ["A"]⟩,
        ⟨"D", 1, ["B", "C"]⟩]).map (fun x => critical_tasks x.1) =
      some ["A", "B", "D"] ∧
    (runPipeline 4 [⟨"A", 2, []⟩, ⟨"B", 5, ["A"]⟩, ⟨"C", 1, ["A"]⟩,
        ⟨"D", 1, ["B", "C"]⟩]).map (fun x => x.1.map (fun o => (o.task, o.slack))) =
      some [("A", (0 : Int)), ("B", 0), ("C", 4), ("D", 0)] := by
  exact ⟨by decide, by decide⟩

/-! ## Claim theorems: error handling (C1, C2, C4) -/

/-- C1: the spec demands that a predecessor cycle yield a `CycleError` and
"never a hang".  The code has no cycle guard: on the cycle A depends on B, B
depends on A, the registry builds without complaint and the forward pass makes
no progress — `calculate_es_ef` fails to complete no matter how much fuel it
is given, which is exactly the Python `while` loop spinning forever. -/
theorem c1_cycle_hangs_forever :
    (load_and_prepare_data rowsC1).map (fun a => a.task) = ["A", "B"] ∧
    ∀ fuel : Nat, calculate_es_ef fuel (load_and_prepare_data rowsC1) = none :=
  ⟨by decide, fun fuel => match fuel with
    | 0 => rfl
    | _ + 1 => rfl⟩

/-- C2: the spec demands an `UnknownPredecessor` error at registry-build time.
The code performs no such validation: the dangling token `Z` passes through
`load_and_prepare_data` untouched, and the forward pass then makes no progress
— `calculate_es_ef` fails to complete for every fuel (the Python loop hangs)
instead of surfacing an error before ES/EF computation. -/
theorem c2_unknown_predecessor_hangs :
    load_and_prepare_data rowsC2 = [⟨"A", 1, ["Z"], []⟩] ∧
    ∀ fuel : Nat, calculate_es_ef fuel (load_and_prepare_data rowsC2) = none :=
  ⟨by decide, fun fuel => match fuel with
    | 0 => rfl
    | _ + 1 => rfl⟩

/-- C4: the spec demands a `DuplicateActivity` error before any computation.
The code never checks: on two rows both named A (durations 2 and 3) the whole
pipeline runs to completion, and because the name-keyed dicts are overwritten,
the first row ends with EF = 3 although ES = 0 and duration = 2 — the table
even violates EF = ES + duration. -/
theorem c4_duplicates_not_rejected :
    (rowsC4.map Row.task).count "A" = 2 ∧
    runPipeline 2 rowsC4 =
      some ([⟨"A", 2, [], [], 0, 3, 0, 3, 0, true⟩,
             ⟨"A", 3, [], [], 0, 3, 0, 3, 0, true⟩], 3) ∧
    (runPipeline 2 rowsC4).map (fun x => x.1.all (fun o => o.ef == o.es + o.duration)) =
      some false := by
  exact ⟨by decide, by decide, by decide⟩

/-! ## Destructuring a successful pipeline run -/

lemma runPipeline_eq_some {fuel : Nat} {rows : List Row} {out : List OutRow} {pf : Int}
    (h : runPipeline fuel rows = some (out, pf)) :
    ∃ esd efd lsd lfd,
      calculate_es_ef fuel (load_and_prepare_data rows) = some (esd, efd) ∧
      calculate_ls_lf fuel efd (load_and_prepare_data rows) = some (lsd, lfd) ∧
      out = mkTable esd efd lsd lfd (load_and_prepare_data rows) ∧
      pf = project_finish efd (load_and_prepare_data rows) := by
  simp only [runPipeline] at h
  cases hf : calculate_es_ef fuel (load_and_prepare_data rows) with
  | none => rw [hf] at h; exact absurd h (by simp)
  | some p =>
    obtain ⟨esd, efd⟩ := p
    rw [hf] at h
    dsimp only at h
    cases hb : calculate_ls_lf fuel efd (load_and_prepare_data rows) with
    | none => rw [hb] at h; exact absurd h (by simp)
    | some q =>
      obtain ⟨lsd, lfd⟩ := q
      rw [hb] at h
      simp only [Option.some.injEq, Prod.mk.injEq] at h
      exact ⟨esd, efd, lsd, lfd, rfl, hb, h.1.symm, h.2.symm⟩

/-! ## Claim theorems: critical-path ordering (C3) -/

/-- C3 counterexample: on `rowsC3` (row B before row A, both critical) the
produced sequence is B then A while ES(B) = 3 exceeds ES(A) = 0 — the output
sequence is in input-row order, not sorted by ascending ES as claimed. -/
theorem c3_counterexample_row_order :
    (runPipeline 2 rowsC3).map (fun x => critical_tasks x.1) = some ["B", "A"] ∧
    (runPipeline 2 rowsC3).map (fun x => x.1.map (fun o => (o.task, o.es))) =
      some [("B", (3 : Int)), ("A", 0)] := by
  exact ⟨by decide, by decide⟩

/-- C3 amended: the critical-path sequence lists exactly the zero-slack
activities, in original input-row order (the source slices the table in row
order; it does not sort by ES). -/
theorem c3_amended_input_order (fuel : Nat) (rows : List Row) (out : List OutRow)
    (pf : Int) (h : runPipeline fuel rows = some (out, pf)) :
    critical_tasks out = (out.filter (fun o => o.slack == 0)).map (fun o => o.task) ∧
    out.map (fun o => o.task) = rows.map Row.task := by
  obtain ⟨esd, efd, lsd, lfd, hf, hb, hout, hpf⟩ := runPipeline_eq_some h
  subst hout
  constructor
  · unfold critical_tasks
    congr 1
    apply List.filter_congr
    intro o ho
    rw [mkTable, List.mem_map] at ho
    obtain ⟨a, ha, rfl⟩ := ho
    simp [mkTable]
  · simp [mkTable, load_and_prepare_data, List.map_map, Function.comp_def]

/-- C3 amended, witness: on the out-of-order chain `rowsC3` the sequence is
exactly the zero-slack rows in input order. -/
theorem c3_amended_input_order_witness :
    critical_tasks outC3 = (outC3.filter (fun o => o.slack == 0)).map (fun o => o.task) ∧
    outC3.map (fun o => o.task) = rowsC3.map Row.task :=
  c3_amended_input_order 2 rowsC3 outC3 5 (by decide)

/-! ## Claim theorems: duplicate names share dict entries (C10) -/

/-- C10 counterexample: an input that does contain two rows sharing the task
name C, yet whose passes do not both terminate — the predecessor cycle between
A and B leaves `calculate_es_ef` unable to complete at any fuel (the Python
loop hangs), so "both passes terminate" fails for this duplicate-bearing
input. -/
theorem c10_counterexample_duplicates_can_hang :
    (rowsC10.map Row.task).count "C" = 2 ∧
    ∀ fuel : Nat, calculate_es_ef fuel (load_and_prepare_data rowsC10) = none :=
  ⟨by decide, fun fuel => match fuel with
    | 0 => rfl
    | 1 => rfl
    | 2 => rfl
    | _ + 3 => rfl⟩

/-- C10 amended: duplicates are never rejected, but the passes need not
terminate (a cycle elsewhere still hangs); whenever the pipeline does
complete, every output row bearing a shared task name receives identical
ES, EF, LS and LF values — the ones last stored under that name, since the
computed columns are name-keyed dict lookups. -/
theorem c10_amended_shared_name_same_values (fuel : Nat) (rows : List Row)
    (out : List OutRow) (pf : Int) (h : runPipeline fuel rows = some (out, pf)) :
    ∀ o ∈ out, ∀ o' ∈ out, o.task = o'.task →
      o.es = o'.es ∧ o.ef = o'.ef ∧ o.ls = o'.ls ∧ o.lf = o'.lf := by
  obtain ⟨esd, efd, lsd, lfd, hf, hb, hout, hpf⟩ := runPipeline_eq_some h
  subst hout
  intro o ho o' ho' htask
  rw [mkTable, List.mem_map] at ho ho'
  obtain ⟨a, ha, rfl⟩ := ho
  obtain ⟨a', ha', rfl⟩ := ho'
  simp only at htask ⊢
  rw [htask]
  exact ⟨rfl, rfl, rfl, rfl⟩

/-- C10 amended, witness: both rows named A of `rowsC10w` end with the same
ES, EF, LS, LF (those last stored under the shared key). -/
theorem c10_amended_shared_name_same_values_witness :
    oC10a.es = oC10b.es ∧ oC10a.ef = oC10b.ef ∧ oC10a.ls = oC10b.ls ∧ oC10a.lf = oC10b.lf :=
  c10_amended_shared_name_same_values 2 rowsC10w outC10w 3 (by decide)
    oC10a (by decide) oC10b (by decide) (by decide)

/-! ## Helper lemmas: dicts, Python max/min, the scan-and-extract sweep -/

lemma dupdate_same (d : DictI) (k : String) (v : Int) : dupdate d k v k = some v := by
  simp [dupdate]

lemma dupdate_ne {d : DictI} {k q : String} {v : Int} (h : q ≠ k) : dupdate d k v q = d q := by
  simp [dupdate, h]

lemma demp_eq (k : String) : demp k = none := rfl

lemma allPredsDone_iff {efd : DictI} {a : Activity} :
    allPredsDone efd a = true ↔ ∀ p ∈ a.predecessors, (efd p).isSome = true := by
  simp [allPredsDone]

lemma allSuccsDone_iff {lsd : DictI} {a : Activity} :
    allSuccsDone lsd a = true ↔ ∀ s ∈ a.successors, (lsd s).isSome = true := by
  simp [allSuccsDone]

lemma foldl_max_init (xs : List Int) : ∀ a : Int, a ≤ xs.foldl max a := by
  induction xs with
  | nil => intro a; exact le_refl a
  | cons x xs ih => intro a; exact le_trans (le_max_left a x) (ih (max a x))

lemma foldl_max_of_mem : ∀ (xs : List Int) (x a : Int), x ∈ xs → x ≤ xs.foldl max a := by
  intro xs
  induction xs with
  | nil => intro x a h; cases h
  | cons y ys ih =>
    intro x a h
    rcases List.mem_cons.1 h with rfl | hy
    · exact le_trans (le_max_right a x) (foldl_max_init ys (max a x))
    · exact ih x (max a y) hy

lemma foldl_max_choice : ∀ (xs : List Int) (a : Int), xs.foldl max a = a ∨ xs.foldl max a ∈ xs := by
  intro xs
  induction xs with
  | nil => intro a; exact Or.inl rfl
  | cons y ys ih =>
    intro a
    simp only [List.foldl_cons]
    rcases ih (max a y) with h | h
    · rw [h]
      rcases max_choice a y with h2 | h2
      · exact Or.inl h2
      · exact Or.inr (by rw [h2]; exact List.mem_cons_self y ys)
    · exact Or.inr (List.mem_cons_of_mem y h)

lemma le_pyMax_of_mem {x : Int} {l : List Int} (h : x ∈ l) : x ≤ pyMax l := by
  cases l with
  | nil => cases h
  | cons y ys =>
    rcases List.mem_cons.1 h with rfl | hy
    · exact foldl_max_init ys x
    · exact foldl_max_of_mem ys x y hy

lemma pyMax_mem {l : List Int} (h : l ≠ []) : pyMax l ∈ l := by
  cases l with
  | nil => exact absurd rfl h
  | cons y ys =>
    show ys.foldl max y ∈ y :: ys
    rcases foldl_max_choice ys y with h2 | h2
    · rw [h2]; exact List.mem_cons_self y ys
    · exact List.mem_cons_of_mem y h2

lemma pyMax_le {l : List Int} {c : Int} (hne : l ≠ []) (h : ∀ x ∈ l, x ≤ c) : pyMax l ≤ c :=
  h _ (pyMax_mem hne)

lemma pyMax_eq {l : List Int} {c : Int} (hc : c ∈ l) (h : ∀ x ∈ l, x ≤ c) : pyMax l = c :=
  le_antisymm (pyMax_le (List.ne_nil_of_mem hc) h) (le_pyMax_of_mem hc)

lemma foldl_min_init (xs : List Int) : ∀ a : Int, xs.foldl min a ≤ a := by
  induction xs with
  | nil => intro a; exact le_refl a
  | cons x xs ih => intro a; exact le_trans (ih (min a x)) (min_le_left a x)

lemma foldl_min_of_mem : ∀ (xs : List Int) (x a : Int), x ∈ xs → xs.foldl min a ≤ x := by
  intro xs
  induction xs with
  | nil => intro x a h; cases h
  | cons y ys ih =>
    intro x a h
    rcases List.mem_cons.1 h with rfl | hy
    · exact le_trans (foldl_min_init ys (min a x)) (min_le_right a x)
    · exact ih x (min a y) hy

lemma pyMin_le_of_mem {x : Int} {l : List Int} (h : x ∈ l) : pyMin l ≤ x := by
  cases l with
  | nil => cases h
  | cons y ys =>
    rcases List.mem_cons.1 h with rfl | hy
    · exact foldl_min_init ys x
    · exact foldl_min_of_mem ys x y hy

lemma foldl_min_choice : ∀ (xs : List Int) (a : Int), xs.foldl min a = a ∨ xs.foldl min a ∈ xs := by
  intro xs
  induction xs with
  | nil => intro a; exact Or.inl rfl
  | cons y ys ih =>
    intro a
    simp only [List.foldl_cons]
    rcases ih (min a y) with h | h
    · rw [h]
      rcases min_choice a y with h2 | h2
      · exact Or.inl h2
      · exact Or.inr (by rw [h2]; exact List.mem_cons_self y ys)
    · exact Or.inr (List.mem_cons_of_mem y h)

lemma pyMin_mem {l : List Int} (h : l ≠ []) : pyMin l ∈ l := by
  cases l with
  | nil => exact absurd rfl h
  | cons y ys =>
    show ys.foldl min y ∈ y :: ys
    rcases foldl_min_choice ys y with h2 | h2
    · rw [h2]; exact List.mem_cons_self y ys
    · exact List.mem_cons_of_mem y h2

lemma le_pyMin {l : List Int} {c : Int} (hne : l ≠ []) (h : ∀ x ∈ l, c ≤ x) : c ≤ pyMin l :=
  h _ (pyMin_mem hne)

lemma pickFirst_eq_some : ∀ (p : Activity → Bool) (l : List Activity) (a : Activity)
    (rest : List Activity), pickFirst p l = some (a, rest) →
    p a = true ∧ ∃ l₁ l₂, l = l₁ ++ a :: l₂ ∧ rest = l₁ ++ l₂ := by
  intro p l
  induction l with
  | nil => intro a rest h; exact absurd h (by simp [pickFirst])
  | cons b bs ih =>
    intro a rest h
    by_cases hb : p b = true
    · rw [pickFirst, if_pos hb] at h
      simp only [Option.some.injEq, Prod.mk.injEq] at h
      obtain ⟨rfl, rfl⟩ := h
      exact ⟨hb, [], bs, rfl, rfl⟩
    · rw [pickFirst, if_neg hb] at h
      cases hrec : pickFirst p bs with
      | none => rw [hrec] at h; exact absurd h (by simp)
      | some pr =>
        obtain ⟨b', rest'⟩ := pr
        rw [hrec] at h
        simp only [Option.some.injEq, Prod.mk.injEq] at h
        obtain ⟨rfl, rfl⟩ := h
        obtain ⟨hp, l₁, l₂, hdec, hrest⟩ := ih b' rest' hrec
        exact ⟨hp, b :: l₁, l₂, by simp [hdec], by simp [hrest]⟩

lemma pickFirst_perm {p : Activity → Bool} {l rest : List Activity} {a : Activity}
    (h : pickFirst p l = some (a, rest)) : l.Perm (a :: rest) := by
  obtain ⟨-, l₁, l₂, hdec, hrest⟩ := pickFirst_eq_some p l a rest h
  rw [hdec, hrest]
  exact List.perm_middle

/-! ## Unrolling a successful loop run into a resolution trace -/

lemma forwardLoop_unroll : ∀ (fuel : Nat) (esd efd esd' efd' : DictI) (rem : List Activity),
    forwardLoop fuel esd efd rem = some (esd', efd') →
    ∃ tr, rem.Perm tr ∧ StepOkF efd tr ∧ foldF esd efd tr = (esd', efd') := by
  intro fuel
  induction fuel with
  | zero =>
    intro esd efd esd' efd' rem h
    cases rem with
    | nil =>
      refine ⟨[], List.Perm.refl [], trivial, ?_⟩
      simp only [forwardLoop, Option.some.injEq, Prod.mk.injEq] at h
      simp only [foldF]
      exact Prod.ext h.1 h.2
    | cons b bs => exact absurd h (by simp [forwardLoop])
  | succ n ih =>
    intro esd efd esd' efd' rem h
    cases rem with
    | nil =>
      refine ⟨[], List.Perm.refl [], trivial, ?_⟩
      simp only [forwardLoop, Option.some.injEq, Prod.mk.injEq] at h
      simp only [foldF]
      exact Prod.ext h.1 h.2
    | cons b bs =>
      rw [forwardLoop] at h
      cases hp : pickFirst (allPredsDone efd) (b :: bs) with
      | none => rw [hp] at h; exact absurd h (by simp)
      | some pr =>
        obtain ⟨a, rest⟩ := pr
        rw [hp] at h
        dsimp only at h
        obtain ⟨tr', hperm, hstep, hfold⟩ := ih _ _ _ _ _ h
        refine ⟨a :: tr', ?_, ?_, ?_⟩
        · exact (pickFirst_perm hp).trans (hperm.cons a)
        · exact ⟨(pickFirst_eq_some _ _ _ _ hp).1, hstep⟩
        · simpa [foldF] using hfold

lemma backwardLoop_unroll : ∀ (fuel : Nat) (pf : Int) (lsd lfd lsd' lfd' : DictI)
    (rem : List Activity), backwardLoop fuel pf lsd lfd rem = some (lsd', lfd') →
    ∃ tr, rem.Perm tr ∧ StepOkB pf lsd tr ∧ foldB pf lsd lfd tr = (lsd', lfd') := by
  intro fuel
  induction fuel with
  | zero =>
    intro pf lsd lfd lsd' lfd' rem h
    cases rem with
    | nil =>
      refine ⟨[], List.Perm.refl [], trivial, ?_⟩
      simp only [backwardLoop, Option.some.injEq, Prod.mk.injEq] at h
      simp only [foldB]
      exact Prod.ext h.1 h.2
    | cons b bs => exact absurd h (by simp [backwardLoop])
  | succ n ih =>
    intro pf lsd lfd lsd' lfd' rem h
    cases rem with
    | nil =>
      refine ⟨[], List.Perm.refl [], trivial, ?_⟩
      simp only [backwardLoop, Option.some.injEq, Prod.mk.injEq] at h
      simp only [foldB]
      exact Prod.ext h.1 h.2
    | cons b bs =>
      rw [backwardLoop] at h
      cases hp : pickFirst (allSuccsDone lsd) (b :: bs) with
      | none => rw [hp] at h; exact absurd h (by simp)
      | some pr =>
        obtain ⟨a, rest⟩ := pr
        rw [hp] at h
        dsimp only at h
        obtain ⟨tr', hperm, hstep, hfold⟩ := ih _ _ _ _ _ _ h
        refine ⟨a :: tr', ?_, ?_, ?_⟩
        · exact (pickFirst_perm hp).trans (hperm.cons a)
        · exact ⟨(pickFirst_eq_some _ _ _ _ hp).1, hstep⟩
        · simpa [foldB] using hfold

/-! ## Frame and congruence: keys not touched by a fold keep their values -/

lemma foldF_frame : ∀ (tr : List Activity) (esd efd : DictI) (k : String),
    (∀ a ∈ tr, a.task ≠ k) →
    (foldF esd efd tr).1 k = esd k ∧ (foldF esd efd tr).2 k = efd k := by
  intro tr
  induction tr with
  | nil => intro esd efd k _; exact ⟨rfl, rfl⟩
  | cons a tr ih =>
    intro esd efd k h
    have hne : k ≠ a.task := fun he => h a (List.mem_cons_self a tr) he.symm
    have htail := ih (dupdate esd a.task (esOf efd a))
      (dupdate efd a.task (esOf efd a + a.duration)) k
      (fun b hb => h b (List.mem_cons_of_mem a hb))
    simp only [foldF]
    rw [htail.1, htail.2, dupdate_ne hne, dupdate_ne hne]
    exact ⟨rfl, rfl⟩

lemma foldB_frame : ∀ (tr : List Activity) (pf : Int) (lsd lfd : DictI) (k : String),
    (∀ a ∈ tr, a.task ≠ k) →
    (foldB pf lsd lfd tr).1 k = lsd k ∧ (foldB pf lsd lfd tr).2 k = lfd k := by
  intro tr
  induction tr with
  | nil => intro pf lsd lfd k _; exact ⟨rfl, rfl⟩
  | cons a tr ih =>
    intro pf lsd lfd k h
    have hne : k ≠ a.task := fun he => h a (List.mem_cons_self a tr) he.symm
    have htail := ih pf (dupdate lsd a.task (lfOf pf lsd a - a.duration))
      (dupdate lfd a.task (lfOf pf lsd a)) k
      (fun b hb => h b (List.mem_cons_of_mem a hb))
    simp only [foldB]
    rw [htail.1, htail.2, dupdate_ne hne, dupdate_ne hne]
    exact ⟨rfl, rfl⟩

lemma esOf_congr {d1 d2 : DictI} {a : Activity}
    (h : ∀ p ∈ a.predecessors, d1 p = d2 p) : esOf d1 a = esOf d2 a := by
  unfold esOf
  by_cases he : a.predecessors.isEmpty
  · rw [if_pos he, if_pos he]
  · rw [if_neg he, if_neg he]
    congr 1
    exact List.map_congr_left (fun p hp => by rw [h p hp])

lemma lfOf_congr {pf : Int} {d1 d2 : DictI} {a : Activity}
    (h : ∀ s ∈ a.successors, d1 s = d2 s) : lfOf pf d1 a = lfOf pf d2 a := by
  unfold lfOf
  by_cases he : a.successors.isEmpty
  · rw [if_pos he, if_pos he]
  · rw [if_neg he, if_neg he]
    congr 1
    exact List.map_congr_left (fun s hs => by rw [h s hs])

/-! ## Fixpoint characterization of a completed pass

With distinct task names and fresh keys, the final dicts of a completed pass
satisfy the CPM equations: the stored ES/EF (resp. LS/LF) of every row are the
row's `esOf`/`lfOf` values computed from the final dicts themselves.
-/

lemma foldF_correct : ∀ (tr : List Activity) (esd efd : DictI),
    (tr.map Activity.task).Nodup →
    (∀ a ∈ tr, efd a.task = none) →
    StepOkF efd tr →
    ∀ a ∈ tr,
      (foldF esd efd tr).1 a.task = some (esOf (foldF esd efd tr).2 a) ∧
      (foldF esd efd tr).2 a.task = some (esOf (foldF esd efd tr).2 a + a.duration) := by
  intro tr
  induction tr with
  | nil => intro esd efd _ _ _ a ha; cases ha
  | cons b tr ih =>
    intro esd efd hnd hfresh hstep a ha
    obtain ⟨hguard, hstep2⟩ := hstep
    have hnd2 : (tr.map Activity.task).Nodup := (List.nodup_cons.1 hnd).2
    have hbnot : b.task ∉ tr.map Activity.task := (List.nodup_cons.1 hnd).1
    have hfresh2 : ∀ c ∈ tr, dupdate efd b.task (esOf efd b + b.duration) c.task = none := by
      intro c hc
      have hcb : c.task ≠ b.task := fun he =>
        hbnot (he ▸ List.mem_map_of_mem Activity.task hc)
      rw [dupdate_ne hcb]
      exact hfresh c (List.mem_cons_of_mem b hc)
    have hpredstable : ∀ p ∈ b.predecessors,
        (foldF (dupdate esd b.task (esOf efd b))
          (dupdate efd b.task (esOf efd b + b.duration)) tr).2 p = efd p := by
      intro p hp
      have hps : (efd p).isSome = true := allPredsDone_iff.1 hguard p hp
      have hpb : p ≠ b.task := by
        intro he
        rw [he, hfresh b (List.mem_cons_self b tr)] at hps
        cases hps
      have hptr : ∀ c ∈ tr, c.task ≠ p := by
        intro c hc he
        have h2 := hfresh c (List.mem_cons_of_mem b hc)
        rw [← he, h2] at hps
        simp at hps
      rw [(foldF_frame tr _ _ p hptr).2, dupdate_ne hpb]
    rcases List.mem_cons.1 ha with rfl | hatr
    · have hframe := foldF_frame tr (dupdate esd a.task (esOf efd a))
        (dupdate efd a.task (esOf efd a + a.duration)) a.task
        (fun c hc he => hbnot (he ▸ List.mem_map_of_mem Activity.task hc))
      have hes : esOf (foldF (dupdate esd a.task (esOf efd a))
          (dupdate efd a.task (esOf efd a + a.duration)) tr).2 a = esOf efd a :=
        esOf_congr hpredstable
      constructor
      · simp only [foldF]
        rw [hframe.1, dupdate_same, hes]
      · simp only [foldF]
        rw [hframe.2, dupdate_same, hes]
    · have h2 := ih (dupdate esd b.task (esOf efd b))
        (dupdate efd b.task (esOf efd b + b.duration)) hnd2 hfresh2 hstep2 a hatr
      simpa only [foldF] using h2

lemma foldB_correct : ∀ (tr : List Activity) (pf : Int) (lsd lfd : DictI),
    (tr.map Activity.task).Nodup →
    (∀ a ∈ tr, lsd a.task = none) →
    StepOkB pf lsd tr →
    ∀ a ∈ tr,
      (foldB pf lsd lfd tr).1 a.task = some (lfOf pf (foldB pf lsd lfd tr).1 a - a.duration) ∧
      (foldB pf lsd lfd tr).2 a.task = some (lfOf pf (foldB pf lsd lfd tr).1 a) := by
  intro tr
  induction tr with
  | nil => intro pf lsd lfd _ _ _ a ha; cases ha
  | cons b tr ih =>
    intro pf lsd lfd hnd hfresh hstep a ha
    obtain ⟨hguard, hstep2⟩ := hstep
    have hnd2 : (tr.map Activity.task).Nodup := (List.nodup_cons.1 hnd).2
    have hbnot : b.task ∉ tr.map Activity.task := (List.nodup_cons.1 hnd).1
    have hfresh2 : ∀ c ∈ tr, dupdate lsd b.task (lfOf pf lsd b - b.duration) c.task = none := by
      intro c hc
      have hcb : c.task ≠ b.task := fun he =>
        hbnot (he ▸ List.mem_map_of_mem Activity.task hc)
      rw [dupdate_ne hcb]
      exact hfresh c (List.mem_cons_of_mem b hc)
    have hsuccstable : ∀ s ∈ b.successors,
        (foldB pf (dupdate lsd b.task (lfOf pf lsd b - b.duration))
          (dupdate lfd b.task (lfOf pf lsd b)) tr).1 s = lsd s := by
      intro s hs
      have hss : (lsd s).isSome = true := allSuccsDone_iff.1 hguard s hs
      have hsb : s ≠ b.task := by
        intro he
        rw [he, hfresh b (List.mem_cons_self b tr)] at hss
        cases hss
      have hstr : ∀ c ∈ tr, c.task ≠ s := by
        intro c hc he
        have h2 := hfresh c (List.mem_cons_of_mem b hc)
        rw [← he, h2] at hss
        simp at hss
      rw [(foldB_frame tr _ _ _ s hstr).1, dupdate_ne hsb]
    rcases List.mem_cons.1 ha with rfl | hatr
    · have hframe := foldB_frame tr pf (dupdate lsd a.task (lfOf pf lsd a - a.duration))
        (dupdate lfd a.task (lfOf pf lsd a)) a.task
        (fun c hc he => hbnot (he ▸ List.mem_map_of_mem Activity.task hc))
      have hlf : lfOf pf (foldB pf (dupdate lsd a.task (lfOf pf lsd a - a.duration))
          (dupdate lfd a.task (lfOf pf lsd a)) tr).1 a = lfOf pf lsd a :=
        lfOf_congr hsuccstable
      constructor
      · simp only [foldB]
        rw [hframe.1, dupdate_same, hlf]
      · simp only [foldB]
        rw [hframe.2, dupdate_same, hlf]
    · have h2 := ih pf (dupdate lsd b.task (lfOf pf lsd b - b.duration))
        (dupdate lfd b.task (lfOf pf lsd b)) hnd2 hfresh2 hstep2 a hatr
      simpa only [foldB] using h2

/-! ## Ordered induction along a backward trace, and registry lemmas -/

lemma stepOkB_ind (pf : Int) (Q : Activity → Prop) :
    ∀ (tr : List Activity) (lsd : DictI),
      (∀ a ∈ tr, (∀ s ∈ a.successors, ∃ b, Q b ∧ b.task = s) → Q a) →
      (∀ k, (lsd k).isSome = true → ∃ b, Q b ∧ b.task = k) →
      StepOkB pf lsd tr →
      ∀ a ∈ tr, Q a := by
  intro tr
  induction tr with
  | nil => intro lsd _ _ _ a ha; cases ha
  | cons b tr ih =>
    intro lsd hstep hinv hok a ha
    obtain ⟨hguard, hok2⟩ := hok
    have hQb : Q b := hstep b (List.mem_cons_self b tr)
      (fun s hs => hinv s (allSuccsDone_iff.1 hguard s hs))
    rcases List.mem_cons.1 ha with rfl | hatr
    · exact hQb
    · refine ih (dupdate lsd b.task (lfOf pf lsd b - b.duration))
        (fun c hc h2 => hstep c (List.mem_cons_of_mem b hc) h2) ?_ hok2 a hatr
      intro k hk
      by_cases hkb : k = b.task
      · exact ⟨b, hQb, hkb.symm⟩
      · rw [dupdate_ne hkb] at hk
        exact hinv k hk

lemma load_map_task (rows : List Row) :
    (load_and_prepare_data rows).map Activity.task = rows.map Row.task := by
  simp [load_and_prepare_data, List.map_map, Function.comp_def]

lemma mem_buildSucc {rows : List Row} {q s : String} :
    s ∈ buildSucc rows q ↔ ∃ r ∈ rows, r.task = s ∧ q ∈ r.predecessors := by
  simp only [buildSucc, List.mem_flatMap, List.mem_replicate]
  constructor
  · rintro ⟨r, hr, hn, rfl⟩
    refine ⟨r, hr, rfl, ?_⟩
    by_contra hq
    exact hn (List.count_eq_zero.2 hq)
  · rintro ⟨r, hr, rfl, hq⟩
    exact ⟨r, hr, fun h0 => (List.count_eq_zero.1 h0) hq, rfl⟩

lemma succ_member {rows : List Row} {a : Activity}
    (ha : a ∈ load_and_prepare_data rows) {s : String} (hs : s ∈ a.successors) :
    ∃ b ∈ load_and_prepare_data rows, b.task = s ∧ a.task ∈ b.predecessors := by
  rw [load_and_prepare_data, List.mem_map] at ha
  obtain ⟨r, hr, rfl⟩ := ha
  obtain ⟨r2, hr2, hrt, hqp⟩ := mem_buildSucc.1 hs
  exact ⟨⟨r2.task, r2.duration, r2.predecessors, buildSucc rows r2.task⟩,
    List.mem_map_of_mem _ hr2, hrt, hqp⟩

lemma acts_task_inj {rows : List Row} (hnd : (rows.map Row.task).Nodup)
    {a b : Activity} (ha : a ∈ load_and_prepare_data rows)
    (hb : b ∈ load_and_prepare_data rows) (hab : a.task = b.task) : a = b := by
  have h2 : ((load_and_prepare_data rows).map Activity.task).Nodup := by
    rw [load_map_task]; exact hnd
  exact List.inj_on_of_nodup_map h2 ha hb hab

/-! ## All facts available after a successful pipeline run -/

lemma pipeline_facts {fuel : Nat} {rows : List Row} {out : List OutRow} {pf : Int}
    (hnd : (rows.map Row.task).Nodup)
    (h : runPipeline fuel rows = some (out, pf)) :
    ∃ esd efd lsd lfd trB,
      out = mkTable esd efd lsd lfd (load_and_prepare_data rows) ∧
      pf = project_finish efd (load_and_prepare_data rows) ∧
      (load_and_prepare_data rows).Perm trB ∧
      StepOkB pf demp trB ∧
      (∀ a ∈ load_and_prepare_data rows,
        esd a.task = some (esOf efd a) ∧ efd a.task = some (esOf efd a + a.duration)) ∧
      (∀ a ∈ load_and_prepare_data rows,
        lsd a.task = some (lfOf pf lsd a - a.duration) ∧ lfd a.task = some (lfOf pf lsd a)) := by
  obtain ⟨esd, efd, lsd, lfd, hf, hb, hout, hpf⟩ := runPipeline_eq_some h
  have hndA : ((load_and_prepare_data rows).map Activity.task).Nodup := by
    rw [load_map_task]; exact hnd
  rw [calculate_es_ef] at hf
  obtain ⟨trF, hpermF, hstepF, hfoldF⟩ := forwardLoop_unroll fuel demp demp esd efd _ hf
  have hndF : (trF.map Activity.task).Nodup := ((hpermF.map Activity.task).nodup_iff).1 hndA
  have hcorrF := foldF_correct trF demp demp hndF (fun a _ => rfl) hstepF
  rw [hfoldF] at hcorrF
  rw [calculate_ls_lf] at hb
  obtain ⟨trB, hpermB, hstepB, hfoldB⟩ :=
    backwardLoop_unroll fuel (project_finish efd (load_and_prepare_data rows)) demp
      (seedLF (project_finish efd (load_and_prepare_data rows)) (load_and_prepare_data rows))
      lsd lfd _ hb
  have hndB : (trB.map Activity.task).Nodup := ((hpermB.map Activity.task).nodup_iff).1 hndA
  have hcorrB := foldB_correct trB (project_finish efd (load_and_prepare_data rows)) demp
    (seedLF (project_finish efd (load_and_prepare_data rows)) (load_and_prepare_data rows))
    hndB (fun a _ => rfl) hstepB
  rw [hfoldB] at hcorrB
  refine ⟨esd, efd, lsd, lfd, trB, hout, hpf, hpermB, ?_, ?_, ?_⟩
  · rw [hpf]; exact hstepB
  · intro a ha
    exact hcorrF a (hpermF.mem_iff.1 ha)
  · intro a ha
    have h2 := hcorrB a (hpermB.mem_iff.1 ha)
    rw [hpf]
    exact h2

/-! ## The two scheduling invariants proven along the backward trace -/

lemma ef_le_lf_all {rows : List Row} {efd lsd lfd : DictI} {pf : Int} {trB : List Activity}
    (hnd : (rows.map Row.task).Nodup)
    (hperm : (load_and_prepare_data rows).Perm trB)
    (hstepB : StepOkB pf demp trB)
    (hpf : pf = project_finish efd (load_and_prepare_data rows))
    (hFef : ∀ a ∈ load_and_prepare_data rows,
      efd a.task = some (esOf efd a + a.duration))
    (hB : ∀ a ∈ load_and_prepare_data rows,
      lsd a.task = some (lfOf pf lsd a - a.duration) ∧ lfd a.task = some (lfOf pf lsd a)) :
    ∀ a ∈ load_and_prepare_data rows, (efd a.task).getD 0 ≤ (lfd a.task).getD 0 := by
  have key : ∀ a ∈ trB,
      a ∈ load_and_prepare_data rows ∧ (efd a.task).getD 0 ≤ (lfd a.task).getD 0 := by
    refine stepOkB_ind pf
      (fun a => a ∈ load_and_prepare_data rows ∧ (efd a.task).getD 0 ≤ (lfd a.task).getD 0)
      trB demp ?_ ?_ hstepB
    · intro a ha hsucc
      have haacts : a ∈ load_and_prepare_data rows := hperm.mem_iff.2 ha
      refine ⟨haacts, ?_⟩
      obtain ⟨hBls, hBlf⟩ := hB a haacts
      rw [hBlf, Option.getD_some]
      unfold lfOf
      by_cases hse : a.successors.isEmpty = true
      · rw [if_pos hse, hpf]
        unfold project_finish
        exact le_pyMax_of_mem (List.mem_map.2 ⟨a, haacts, rfl⟩)
      · rw [if_neg hse]
        have hne2 : a.successors ≠ [] := by
          intro h0
          rw [h0] at hse
          exact hse rfl
        apply le_pyMin
        · intro h0
          exact hne2 (List.map_eq_nil_iff.1 h0)
        · intro x hx
          obtain ⟨s, hs, rfl⟩ := List.mem_map.1 hx
          obtain ⟨b, ⟨hbacts, hbEFLF⟩, hbtask⟩ := hsucc s hs
          obtain ⟨hBlsb, hBlfb⟩ := hB b hbacts
          obtain ⟨b2, hb2, hb2t, hb2p⟩ := succ_member haacts hs
          have hbb2 : b = b2 := acts_task_inj hnd hbacts hb2 (by rw [hbtask, hb2t])
          have hmem : a.task ∈ b.predecessors := by rw [hbb2]; exact hb2p
          rw [hBlfb, Option.getD_some] at hbEFLF
          rw [hFef b hbacts, Option.getD_some] at hbEFLF
          rw [← hbtask, hBlsb, Option.getD_some]
          have hEFa : (efd a.task).getD 0 ≤ esOf efd b := by
            have hbne : ¬ (b.predecessors.isEmpty = true) := by
              simp only [List.isEmpty_iff]
              exact List.ne_nil_of_mem hmem
            unfold esOf
            rw [if_neg hbne]
            exact le_pyMax_of_mem (List.mem_map.2 ⟨a.task, hmem, rfl⟩)
          omega
    · intro k hk
      simp [demp] at hk
  intro a ha
  exact (key a (hperm.mem_iff.1 ha)).2

lemma lf_le_pf_all {rows : List Row} {lsd lfd : DictI} {pf : Int} {trB : List Activity}
    (hdur : ∀ r ∈ rows, 0 ≤ r.duration)
    (hperm : (load_and_prepare_data rows).Perm trB)
    (hstepB : StepOkB pf demp trB)
    (hB : ∀ a ∈ load_and_prepare_data rows,
      lsd a.task = some (lfOf pf lsd a - a.duration) ∧ lfd a.task = some (lfOf pf lsd a)) :
    ∀ a ∈ load_and_prepare_data rows, (lfd a.task).getD 0 ≤ pf := by
  have hdurA : ∀ a ∈ load_and_prepare_data rows, 0 ≤ a.duration := by
    intro a ha
    rw [load_and_prepare_data, List.mem_map] at ha
    obtain ⟨r, hr, rfl⟩ := ha
    exact hdur r hr
  have key : ∀ a ∈ trB,
      a ∈ load_and_prepare_data rows ∧ (lfd a.task).getD 0 ≤ pf := by
    refine stepOkB_ind pf
      (fun a => a ∈ load_and_prepare_data rows ∧ (lfd a.task).getD 0 ≤ pf)
      trB demp ?_ ?_ hstepB
    · intro a ha hsucc
      have haacts : a ∈ load_and_prepare_data rows := hperm.mem_iff.2 ha
      refine ⟨haacts, ?_⟩
      obtain ⟨hBls, hBlf⟩ := hB a haacts
      rw [hBlf, Option.getD_some]
      unfold lfOf
      by_cases hse : a.successors.isEmpty = true
      · rw [if_pos hse]
      · rw [if_neg hse]
        have hne2 : a.successors ≠ [] := by
          intro h0
          rw [h0] at hse
          exact hse rfl
        obtain ⟨s, hs⟩ := List.exists_mem_of_ne_nil _ hne2
        apply le_trans (pyMin_le_of_mem (List.mem_map.2 ⟨s, hs, rfl⟩))
        obtain ⟨b, ⟨hbacts, hbLF⟩, hbtask⟩ := hsucc s hs
        obtain ⟨hBlsb, hBlfb⟩ := hB b hbacts
        rw [← hbtask, hBlsb, Option.getD_some]
        rw [hBlfb, Option.getD_some] at hbLF
        have hdb := hdurA b hbacts
        omega
    · intro k hk
      simp [demp] at hk
  intro a ha
  exact (key a (hperm.mem_iff.1 ha)).2

/-! ## Claim theorems: functional correctness of the two passes (C5 - C9) -/

/-- C5: for every input with distinct task names on which the pipeline
completes (which is what the code does on every valid acyclic activity set),
every activity's slack equals LS - ES and is non-negative. -/
theorem c5_slack_nonneg (fuel : Nat) (rows : List Row) (out : List OutRow) (pf : Int)
    (hnd : (rows.map Row.task).Nodup)
    (h : runPipeline fuel rows = some (out, pf)) :
    ∀ o ∈ out, o.slack = o.ls - o.es ∧ 0 ≤ o.slack := by
  obtain ⟨esd, efd, lsd, lfd, trB, hout, hpf, hperm, hstepB, hF, hB⟩ := pipeline_facts hnd h
  have hEFLF := ef_le_lf_all hnd hperm hstepB hpf (fun a ha => (hF a ha).2) hB
  subst hout
  intro o ho
  rw [mkTable, List.mem_map] at ho
  obtain ⟨a, ha, rfl⟩ := ho
  have h1 := hEFLF a ha
  obtain ⟨hFes, hFef⟩ := hF a ha
  obtain ⟨hBls, hBlf⟩ := hB a ha
  rw [hFef, hBlf, Option.getD_some, Option.getD_some] at h1
  refine ⟨rfl, ?_⟩
  dsimp only
  rw [hFes, hBls, Option.getD_some, Option.getD_some]
  omega

/-- C5 witness: applied to the spec's linear chain. -/
theorem c5_slack_nonneg_witness : oC5.slack = oC5.ls - oC5.es ∧ (0 : Int) ≤ oC5.slack :=
  c5_slack_nonneg 3 rowsC5 outC5 9 (by decide) (by decide) oC5 (by decide)

/-- C6: for every non-empty input with distinct task names and non-negative
durations on which the pipeline completes, the maximum EF over all activities
and the maximum LF over all activities both equal the `project_finish` scalar
the pipeline returns — the one that seeded the backward pass. -/
theorem c6_max_ef_eq_max_lf (fuel : Nat) (rows : List Row) (out : List OutRow) (pf : Int)
    (hnd : (rows.map Row.task).Nodup)
    (hdur : ∀ r ∈ rows, 0 ≤ r.duration)
    (hne : rows ≠ [])
    (h : runPipeline fuel rows = some (out, pf)) :
    pyMax (out.map (fun o => o.ef)) = pf ∧ pyMax (out.map (fun o => o.lf)) = pf := by
  obtain ⟨esd, efd, lsd, lfd, trB, hout, hpf, hperm, hstepB, hF, hB⟩ := pipeline_facts hnd h
  have hEFLF := ef_le_lf_all hnd hperm hstepB hpf (fun a ha => (hF a ha).2) hB
  have hLFpf := lf_le_pf_all hdur hperm hstepB hB
  have hmapef : out.map (fun o => o.ef) =
      (load_and_prepare_data rows).map (fun a => (efd a.task).getD 0) := by
    subst hout
    simp [mkTable, List.map_map, Function.comp_def]
  have hmaplf : out.map (fun o => o.lf) =
      (load_and_prepare_data rows).map (fun a => (lfd a.task).getD 0) := by
    subst hout
    simp [mkTable, List.map_map, Function.comp_def]
  have hactsne : load_and_prepare_data rows ≠ [] := by
    intro h0
    rw [load_and_prepare_data] at h0
    exact hne (List.map_eq_nil_iff.1 h0)
  have hmem : pf ∈ (load_and_prepare_data rows).map (fun a => (efd a.task).getD 0) := by
    rw [hpf]
    unfold project_finish
    exact pyMax_mem (fun h0 => hactsne (List.map_eq_nil_iff.1 h0))
  obtain ⟨astar, hastar, hEFstar⟩ := List.mem_map.1 hmem
  have hLFstar : (lfd astar.task).getD 0 = pf := by
    have h1 := hEFLF astar hastar
    have h2 := hLFpf astar hastar
    omega
  constructor
  · rw [hmapef, hpf]
    rfl
  · rw [hmaplf]
    apply pyMax_eq
    · exact List.mem_map.2 ⟨astar, hastar, hLFstar⟩
    · intro x hx
      obtain ⟨a, ha, rfl⟩ := List.mem_map.1 hx
      exact hLFpf a ha

/-- C6 witness: applied to the spec's parallel-branches scenario. -/
theorem c6_max_ef_eq_max_lf_witness :
    pyMax (outC6.map (fun o => o.ef)) = 8 ∧ pyMax (outC6.map (fun o => o.lf)) = 8 :=
  c6_max_ef_eq_max_lf 4 rowsC6 outC6 8 (by decide) (by decide) (by decide) (by decide)

/-- C7: for every non-empty input with distinct task names and non-negative
durations on which the pipeline completes, some activity ends with slack 0 and
is marked critical, so the critical-path sequence is non-empty. -/
theorem c7_critical_path_nonempty (fuel : Nat) (rows : List Row) (out : List OutRow)
    (pf : Int) (hnd : (rows.map Row.task).Nodup)
    (hdur : ∀ r ∈ rows, 0 ≤ r.duration)
    (hne : rows ≠ [])
    (h : runPipeline fuel rows = some (out, pf)) :
    (∃ o ∈ out, o.slack = 0 ∧ o.critical = true) ∧ critical_tasks out ≠ [] := by
  obtain ⟨esd, efd, lsd, lfd, trB, hout, hpf, hperm, hstepB, hF, hB⟩ := pipeline_facts hnd h
  have hEFLF := ef_le_lf_all hnd hperm hstepB hpf (fun a ha => (hF a ha).2) hB
  have hLFpf := lf_le_pf_all hdur hperm hstepB hB
  have hactsne : load_and_prepare_data rows ≠ [] := by
    intro h0
    rw [load_and_prepare_data] at h0
    exact hne (List.map_eq_nil_iff.1 h0)
  have hmem : pf ∈ (load_and_prepare_data rows).map (fun a => (efd a.task).getD 0) := by
    rw [hpf]
    unfold project_finish
    exact pyMax_mem (fun h0 => hactsne (List.map_eq_nil_iff.1 h0))
  obtain ⟨astar, hastar, hEFstar⟩ := List.mem_map.1 hmem
  have hLFstar : (lfd astar.task).getD 0 = pf := by
    have h1 := hEFLF astar hastar
    have h2 := hLFpf astar hastar
    omega
  obtain ⟨hFes, hFef⟩ := hF astar hastar
  obtain ⟨hBls, hBlf⟩ := hB astar hastar
  rw [hBlf, Option.getD_some] at hLFstar
  rw [hFef, Option.getD_some] at hEFstar
  have hslack : (lsd astar.task).getD 0 - (esd astar.task).getD 0 = 0 := by
    rw [hBls, hFes, Option.getD_some, Option.getD_some]
    omega
  subst hout
  have hcrit : ((lsd astar.task).getD 0 - (esd astar.task).getD 0 == 0) = true := by
    rw [hslack]
    rfl
  refine ⟨⟨_, List.mem_map_of_mem _ hastar, ?_, ?_⟩, ?_⟩
  · exact hslack
  · exact hcrit
  · apply List.ne_nil_of_mem (a := astar.task)
    unfold critical_tasks
    refine List.mem_map.2 ⟨_, List.mem_filter.2 ⟨List.mem_map_of_mem _ hastar, hcrit⟩, rfl⟩

/-- C7 witness: applied to the spec's parallel-branches scenario. -/
theorem c7_critical_path_nonempty_witness :
    (∃ o ∈ outC7, o.slack = 0 ∧ o.critical = true) ∧ critical_tasks outC7 ≠ [] :=
  c7_critical_path_nonempty 4 rowsC7 outC7 8 (by decide) (by decide) (by decide) (by decide)

/-- C8: for every input with distinct task names on which the pipeline
completes, every activity satisfies EF = ES + duration and LF = LS + duration. -/
theorem c8_finish_eq_start_plus_duration (fuel : Nat) (rows : List Row)
    (out : List OutRow) (pf : Int) (hnd : (rows.map Row.task).Nodup)
    (h : runPipeline fuel rows = some (out, pf)) :
    ∀ o ∈ out, o.ef = o.es + o.duration ∧ o.lf = o.ls + o.duration := by
  obtain ⟨esd, efd, lsd, lfd, trB, hout, hpf, hperm, hstepB, hF, hB⟩ := pipeline_facts hnd h
  subst hout
  intro o ho
  rw [mkTable, List.mem_map] at ho
  obtain ⟨a, ha, rfl⟩ := ho
  obtain ⟨hFes, hFef⟩ := hF a ha
  obtain ⟨hBls, hBlf⟩ := hB a ha
  constructor
  · dsimp only
    rw [hFes, hFef, Option.getD_some, Option.getD_some]
  · dsimp only
    rw [hBls, hBlf, Option.getD_some, Option.getD_some]
    omega

/-- C8 witness: applied to the spec's linear chain. -/
theorem c8_finish_eq_start_plus_duration_witness :
    oC8.ef = oC8.es + oC8.duration ∧ oC8.lf = oC8.ls + oC8.duration :=
  c8_finish_eq_start_plus_duration 3 rowsC8 outC8 9 (by decide) (by decide) oC8 (by decide)

/-- C9: for every input with distinct task names on which the pipeline
completes, slack = LS - ES, this also equals LF - EF, and the Critical flag
is set exactly when slack = 0 (exact integer equality). -/
theorem c9_slack_forms_agree (fuel : Nat) (rows : List Row) (out : List OutRow)
    (pf : Int) (hnd : (rows.map Row.task).Nodup)
    (h : runPipeline fuel rows = some (out, pf)) :
    ∀ o ∈ out, o.slack = o.ls - o.es ∧ o.slack = o.lf - o.ef ∧
      (o.critical = true ↔ o.slack = 0) := by
  obtain ⟨esd, efd, lsd, lfd, trB, hout, hpf, hperm, hstepB, hF, hB⟩ := pipeline_facts hnd h
  subst hout
  intro o ho
  rw [mkTable, List.mem_map] at ho
  obtain ⟨a, ha, rfl⟩ := ho
  obtain ⟨hFes, hFef⟩ := hF a ha
  obtain ⟨hBls, hBlf⟩ := hB a ha
  refine ⟨rfl, ?_, ?_⟩
  · dsimp only
    rw [hFes, hFef, hBls, hBlf, Option.getD_some, Option.getD_some,
      Option.getD_some, Option.getD_some]
    omega
  · dsimp only
    simp [beq_iff_eq]

/-- C9 witness: applied to the spec's linear chain. -/
theorem c9_slack_forms_agree_witness :
    oC9.slack = oC9.ls - oC9.es ∧ oC9.slack = oC9.lf - oC9.ef ∧
      (oC9.critical = true ↔ oC9.slack = 0) :=
  c9_slack_forms_agree 3 rowsC9 outC9 9 (by decide) (by decide) oC9 (by decide)

/-! ## Liveness: on acyclic inputs the loops complete

These results close the gap between the claims' "valid acyclic activity set"
premise and the completed-run hypothesis of the theorems above: given a
topological order of the activities, both passes finish with fuel equal to the
number of rows.
-/

lemma exists_ready (deps : Activity → List String) (d : DictI) :
    ∀ (ord : List Activity) (done : List String),
      (∀ k ∈ done, (d k).isSome = true) →
      TopoOrderOn deps done ord →
      ∀ (remaining : List Activity), (∀ a ∈ remaining, a ∈ ord) → remaining ≠ [] →
      (∀ a ∈ ord, a ∉ remaining → (d a.task).isSome = true) →
      ∃ a ∈ remaining, ∀ x ∈ deps a, (d x).isSome = true := by
  intro ord
  induction ord with
  | nil =>
    intro done _ _ remaining hsub hne _
    obtain ⟨a, ha⟩ := List.exists_mem_of_ne_nil _ hne
    cases hsub a ha
  | cons b ord ih =>
    intro done hdone htopo remaining hsub hne hres
    obtain ⟨hdeps, htopo2⟩ := htopo
    by_cases hbr : b ∈ remaining
    · exact ⟨b, hbr, fun x hx => hdone x (hdeps x hx)⟩
    · refine ih (b.task :: done) ?_ htopo2 remaining ?_ hne ?_
      · intro k hk
        rcases List.mem_cons.1 hk with rfl | hk2
        · exact hres b (List.mem_cons_self b ord) hbr
        · exact hdone k hk2
      · intro a ha
        rcases List.mem_cons.1 (hsub a ha) with rfl | h2
        · exact absurd ha hbr
        · exact h2
      · intro a ha ha2
        exact hres a (List.mem_cons_of_mem b ha) ha2

lemma pickFirst_isSome {p : Activity → Bool} :
    ∀ {l : List Activity}, (∃ a ∈ l, p a = true) →
      ∃ c rest, pickFirst p l = some (c, rest) := by
  intro l
  induction l with
  | nil => rintro ⟨a, ha, -⟩; cases ha
  | cons b bs ih =>
    rintro ⟨a, ha, hp⟩
    by_cases hb : p b = true
    · exact ⟨b, bs, by rw [pickFirst, if_pos hb]⟩
    · have ha2 : a ∈ bs := by
        rcases List.mem_cons.1 ha with rfl | h2
        · exact absurd hp hb
        · exact h2
      obtain ⟨c, rest, hrec⟩ := ih ⟨a, ha2, hp⟩
      exact ⟨c, b :: rest, by rw [pickFirst, if_neg hb, hrec]⟩

lemma forwardLoop_completes : ∀ (n : Nat) (ord remaining : List Activity) (esd efd : DictI),
    remaining.length ≤ n →
    TopoOrderOn (fun a => a.predecessors) [] ord →
    (∀ a ∈ remaining, a ∈ ord) →
    (∀ a ∈ ord, a ∉ remaining → (efd a.task).isSome = true) →
    ∃ esd' efd', forwardLoop n esd efd remaining = some (esd', efd') := by
  intro n
  induction n with
  | zero =>
    intro ord remaining esd efd hlen _ _ _
    cases remaining with
    | nil => exact ⟨esd, efd, rfl⟩
    | cons b bs => simp at hlen
  | succ m ih =>
    intro ord remaining esd efd hlen htopo hsub hres
    cases remaining with
    | nil => exact ⟨esd, efd, rfl⟩
    | cons b bs =>
      have hex := exists_ready (fun a => a.predecessors) efd ord []
        (by intro k hk; cases hk) htopo (b :: bs) hsub (by simp) hres
      have hex2 : ∃ a ∈ b :: bs, allPredsDone efd a = true := by
        obtain ⟨a, ha, h2⟩ := hex
        exact ⟨a, ha, allPredsDone_iff.2 h2⟩
      obtain ⟨c, rest, hpick⟩ := pickFirst_isSome hex2
      obtain ⟨hguard, l₁, l₂, hdec, hrest⟩ := pickFirst_eq_some _ _ _ _ hpick
      have hlen2 : rest.length ≤ m := by
        have h3 : (b :: bs).length = rest.length + 1 := by
          rw [hdec, hrest]
          simp
          omega
        simp only [List.length_cons] at h3 hlen
        omega
      have hsub2 : ∀ a ∈ rest, a ∈ ord := by
        intro a ha
        apply hsub
        rw [hrest] at ha
        rw [hdec]
        rcases List.mem_append.1 ha with h2 | h2
        · exact List.mem_append.2 (Or.inl h2)
        · exact List.mem_append.2 (Or.inr (List.mem_cons_of_mem c h2))
      have hres2 : ∀ a ∈ ord, a ∉ rest →
          (dupdate efd c.task (esOf efd c + c.duration) a.task).isSome = true := by
        intro a ha ha2
        by_cases hac : a.task = c.task
        · rw [hac, dupdate_same]
          rfl
        · rw [dupdate_ne hac]
          apply hres a ha
          intro hmem2
          rw [hdec] at hmem2
          rcases List.mem_append.1 hmem2 with h2 | h2
          · exact ha2 (by rw [hrest]; exact List.mem_append.2 (Or.inl h2))
          · rcases List.mem_cons.1 h2 with rfl | h3
            · exact hac rfl
            · exact ha2 (by rw [hrest]; exact List.mem_append.2 (Or.inr h3))
      obtain ⟨esd', efd', hdone⟩ := ih ord rest
        (dupdate esd c.task (esOf efd c)) (dupdate efd c.task (esOf efd c + c.duration))
        hlen2 htopo hsub2 hres2
      refine ⟨esd', efd', ?_⟩
      rw [forwardLoop, hpick]
      exact hdone

lemma backwardLoop_completes : ∀ (n : Nat) (pf : Int) (ord remaining : List Activity)
    (lsd lfd : DictI),
    remaining.length ≤ n →
    TopoOrderOn (fun a => a.successors) [] ord →
    (∀ a ∈ remaining, a ∈ ord) →
    (∀ a ∈ ord, a ∉ remaining → (lsd a.task).isSome = true) →
    ∃ lsd' lfd', backwardLoop n pf lsd lfd remaining = some (lsd', lfd') := by
  intro n
  induction n with
  | zero =>
    intro pf ord remaining lsd lfd hlen _ _ _
    cases remaining with
    | nil => exact ⟨lsd, lfd, rfl⟩
    | cons b bs => simp at hlen
  | succ m ih =>
    intro pf ord remaining lsd lfd hlen htopo hsub hres
    cases remaining with
    | nil => exact ⟨lsd, lfd, rfl⟩
    | cons b bs =>
      have hex := exists_ready (fun a => a.successors) lsd ord []
        (by intro k hk; cases hk) htopo (b :: bs) hsub (by simp) hres
      have hex2 : ∃ a ∈ b :: bs, allSuccsDone lsd a = true := by
        obtain ⟨a, ha, h2⟩ := hex
        exact ⟨a, ha, allSuccsDone_iff.2 h2⟩
      obtain ⟨c, rest, hpick⟩ := pickFirst_isSome hex2
      obtain ⟨hguard, l₁, l₂, hdec, hrest⟩ := pickFirst_eq_some _ _ _ _ hpick
      have hlen2 : rest.length ≤ m := by
        have h3 : (b :: bs).length = rest.length + 1 := by
          rw [hdec, hrest]
          simp
          omega
        simp only [List.length_cons] at h3 hlen
        omega
      have hsub2 : ∀ a ∈ rest, a ∈ ord := by
        intro a ha
        apply hsub
        rw [hrest] at ha
        rw [hdec]
        rcases List.mem_append.1 ha with h2 | h2
        · exact List.mem_append.2 (Or.inl h2)
        · exact List.mem_append.2 (Or.inr (List.mem_cons_of_mem c h2))
      have hres2 : ∀ a ∈ ord, a ∉ rest →
          (dupdate lsd c.task (lfOf pf lsd c - c.duration) a.task).isSome = true := by
        intro a ha ha2
        by_cases hac : a.task = c.task
        · rw [hac, dupdate_same]
          rfl
        · rw [dupdate_ne hac]
          apply hres a ha
          intro hmem2
          rw [hdec] at hmem2
          rcases List.mem_append.1 hmem2 with h2 | h2
          · exact ha2 (by rw [hrest]; exact List.mem_append.2 (Or.inl h2))
          · rcases List.mem_cons.1 h2 with rfl | h3
            · exact hac rfl
            · exact ha2 (by rw [hrest]; exact List.mem_append.2 (Or.inr h3))
      obtain ⟨lsd', lfd', hdone⟩ := ih pf ord rest
        (dupdate lsd c.task (lfOf pf lsd c - c.duration)) (dupdate lfd c.task (lfOf pf lsd c))
        hlen2 htopo hsub2 hres2
      refine ⟨lsd', lfd', ?_⟩
      rw [backwardLoop, hpick]
      exact hdone

lemma topoOrderOn_iff_parts (deps : Activity → List String) :
    ∀ (ord : List Activity) (done : List String),
      TopoOrderOn deps done ord ↔
        ∀ l₁ a l₂, ord = l₁ ++ a :: l₂ →
          ∀ x ∈ deps a, x ∈ done ∨ x ∈ l₁.map Activity.task := by
  intro ord
  induction ord with
  | nil =>
    intro done
    constructor
    · intro _ l₁ a l₂ hdec
      exact absurd hdec (by simp)
    · intro _
      trivial
  | cons b tr ih =>
    intro done
    constructor
    · rintro ⟨hd, ht⟩ l₁ a l₂ hdec x hx
      cases l₁ with
      | nil =>
        injection hdec with h1 h2
        subst h1
        exact Or.inl (hd x hx)
      | cons c l₁ =>
        injection hdec with h1 h2
        subst h1
        have h3 := (ih (b.task :: done)).1 ht l₁ a l₂ h2 x hx
        rcases h3 with h3 | h3
        · rcases List.mem_cons.1 h3 with rfl | h4
          · exact Or.inr (by simp)
          · exact Or.inl h4
        · exact Or.inr (by rw [List.map_cons]; exact List.mem_cons_of_mem _ h3)
    · intro hparts
      refine ⟨?_, ?_⟩
      · intro x hx
        rcases hparts [] b tr rfl x hx with h | h
        · exact h
        · cases h
      · apply (ih (b.task :: done)).2
        intro l₁ a l₂ hdec x hx
        rcases hparts (b :: l₁) a l₂ (by simp [hdec]) x hx with h | h
        · exact Or.inl (List.mem_cons_of_mem _ h)
        · rw [List.map_cons] at h
          rcases List.mem_cons.1 h with rfl | h2
          · exact Or.inl (List.mem_cons_self _ _)
          · exact Or.inr h2

lemma partsTopo_reverse {ord : List Activity}
    (hnd : (ord.map Activity.task).Nodup)
    (hclosed : ∀ a ∈ ord, ∀ s ∈ a.successors,
      ∃ b ∈ ord, b.task = s ∧ a.task ∈ b.predecessors)
    (hparts : PartsTopo (fun a => a.predecessors) ord) :
    PartsTopo (fun a => a.successors) ord.reverse := by
  intro l₁ a l₂ hdec s hs
  have hord : ord = l₂.reverse ++ a :: l₁.reverse := by
    have h2 := congrArg List.reverse hdec
    rw [List.reverse_reverse] at h2
    rw [h2]
    simp
  have hain : a ∈ ord := by
    rw [hord]
    exact List.mem_append.2 (Or.inr (List.mem_cons_self _ _))
  obtain ⟨b, hb, hbt, hbp⟩ := hclosed a hain s hs
  rw [hord] at hb
  rcases List.mem_append.1 hb with hbl2 | hbal1
  · exfalso
    obtain ⟨m₁, m₂, hm⟩ := List.append_of_mem hbl2
    have hord2 : ord = m₁ ++ b :: (m₂ ++ a :: l₁.reverse) := by
      rw [hord, hm]
      simp
    have hatask := hparts m₁ b (m₂ ++ a :: l₁.reverse) hord2 a.task hbp
    have hnd2 := hnd
    rw [hord2, List.map_append, List.map_cons] at hnd2
    have hdisj := List.disjoint_of_nodup_append hnd2
    apply hdisj hatask
    apply List.mem_cons_of_mem
    rw [List.map_append, List.map_cons]
    exact List.mem_append.2 (Or.inr (List.mem_cons_self _ _))
  · rcases List.mem_cons.1 hbal1 with rfl | hbl1
    · exfalso
      have hatask := hparts l₂.reverse b l₁.reverse hord b.task hbp
      have hnd2 := hnd
      rw [hord, List.map_append, List.map_cons] at hnd2
      have hdisj := List.disjoint_of_nodup_append hnd2
      exact hdisj hatask (List.mem_cons_self _ _)
    · rw [← hbt]
      exact List.mem_map_of_mem _ (List.mem_reverse.1 hbl1)

/-- Liveness: on an input with distinct task names whose activity graph admits
a topological order, the whole pipeline completes with fuel equal to the
number of rows — the properties proven above about completed runs therefore
apply to every valid acyclic activity set. -/
theorem runPipeline_completes_of_acyclic (rows : List Row)
    (hnd : (rows.map Row.task).Nodup)
    (ord : List Activity)
    (hperm : (load_and_prepare_data rows).Perm ord)
    (htopo : TopoOrderOn (fun a => a.predecessors) [] ord) :
    ∃ out pfv, runPipeline rows.length rows = some (out, pfv) := by
  have hlenacts : (load_and_prepare_data rows).length = rows.length := by
    rw [load_and_prepare_data]
    exact List.length_map _ _
  obtain ⟨esd, efd, hfwd⟩ := forwardLoop_completes rows.length ord
    (load_and_prepare_data rows) demp demp (le_of_eq hlenacts) htopo
    (fun a ha => hperm.mem_iff.1 ha)
    (fun a ha ha2 => absurd (hperm.mem_iff.2 ha) ha2)
  have hndo : (ord.map Activity.task).Nodup :=
    ((hperm.map Activity.task).nodup_iff).1 (by rw [load_map_task]; exact hnd)
  have hclosed : ∀ a ∈ ord, ∀ s ∈ a.successors,
      ∃ b ∈ ord, b.task = s ∧ a.task ∈ b.predecessors := by
    intro a ha s hs
    obtain ⟨b, hb, hbt, hbp⟩ := succ_member (hperm.mem_iff.2 ha) hs
    exact ⟨b, hperm.mem_iff.1 hb, hbt, hbp⟩
  have hpartsF : PartsTopo (fun a => a.predecessors) ord := by
    have h2 := (topoOrderOn_iff_parts _ ord []).1 htopo
    intro l₁ a l₂ hdec x hx
    rcases h2 l₁ a l₂ hdec x hx with h | h
    · cases h
    · exact h
  have hpartsB := partsTopo_reverse hndo hclosed hpartsF
  have htopoB : TopoOrderOn (fun a => a.successors) [] ord.reverse := by
    apply (topoOrderOn_iff_parts _ _ []).2
    intro l₁ a l₂ hdec x hx
    exact Or.inr (hpartsB l₁ a l₂ hdec x hx)
  obtain ⟨lsd, lfd, hbwd⟩ := backwardLoop_completes rows.length
    (project_finish efd (load_and_prepare_data rows)) ord.reverse
    (load_and_prepare_data rows) demp
    (seedLF (project_finish efd (load_and_prepare_data rows)) (load_and_prepare_data rows))
    (le_of_eq hlenacts) htopoB
    (fun a ha => List.mem_reverse.2 (hperm.mem_iff.1 ha))
    (fun a ha ha2 => absurd (hperm.mem_iff.2 (List.mem_reverse.1 ha)) ha2)
  have hf2 : calculate_es_ef rows.length (load_and_prepare_data rows) = some (esd, efd) := by
    rw [calculate_es_ef]
    exact hfwd
  have hb2 : calculate_ls_lf rows.length efd (load_and_prepare_data rows) = some (lsd, lfd) := by
    rw [calculate_ls_lf]
    exact hbwd
  exact ⟨mkTable esd efd lsd lfd (load_and_prepare_data rows),
    project_finish efd (load_and_prepare_data rows), by simp only [runPipeline, hf2, hb2]⟩
